import Mathlib

/-!
Verification of the tikz-extractor extraction engine
(`src/tikz_extractor/extractor.py`) against its specification.

Text is modelled as `List Char`; paths are plain strings (`List Char`,
POSIX separators).  Filesystem reads and writes are modelled with explicit
oracles (`read : List Char → Except IOErr (List Char)` for file contents,
`wo : List Char → Except IOErr Unit` for write outcomes), so that the
`try/except` control flow of the Python code becomes explicit matching on
`Except` values.  All definitions are executable.
-/

namespace TikzExtractor

/-- The error kinds caught by `except (UnicodeDecodeError, IOError, OSError)`
in `extract_from_directory` (in Python 3, `IOError` is an alias of
`OSError`; permission errors and disk-full errors are `OSError`s). -/
inductive IOErr where
  | decodeError : IOErr
  | osError : IOErr
deriving DecidableEq, Repr

/-- The literal begin marker matched by `TIKZ_RE`. -/
def beginMarker : List Char := "\\begin\x7btikzpicture\x7d".data

/-- The literal end marker matched by `TIKZ_RE`. -/
def endMarker : List Char := "\\end\x7btikzpicture\x7d".data

/-- The literal `\end`-prefix tested by `clean_line.startswith("\\end\x7b")`
in `_format_tikz_content` (only used to update the dead `indent_level`). -/
def endBracePrefix : List Char := "\\end\x7b".data

/-- Index of the first occurrence of `pat` in `t` (leftmost position `p`
with `pat` a prefix of `t.drop p`), as used by regex scanning. -/
def findOcc (pat : List Char) : List Char → Option Nat
  | [] => if pat.isPrefixOf ([] : List Char) then some 0 else none
  | c :: rest =>
    if pat.isPrefixOf (c :: rest) then some 0
    else (findOcc pat rest).map (· + 1)

/-- All positions at which `pat` occurs in `t`. -/
def occPositions (pat t : List Char) : List Nat :=
  (List.range (t.length + 1)).filter (fun p => pat.isPrefixOf (t.drop p))

/-- Number of positions at which `pat` occurs in `t`.  For patterns that
cannot overlap themselves (such as both markers, whose first character
`\` occurs nowhere else in them) this coincides with Python's
non-overlapping `str.count`. -/
def countOcc (pat t : List Char) : Nat := (occPositions pat t).length

/-- Fuel-indexed scanning loop of `TIKZ_RE.findall`: find the leftmost
begin marker, then the nearest end marker after it (non-greedy `.*?` with
DOTALL), emit the span, and continue after the match.  The fuel only
bounds the number of iterations; `extract_tikz_from_text` supplies enough
fuel for it never to run out (each iteration consumes at least one
character of the remaining text). -/
def extractTikzAux : Nat → List Char → List (List Char)
  | 0, _ => []
  | fuel + 1, t =>
    match findOcc beginMarker t with
    | none => []
    | some i =>
      match findOcc endMarker ((t.drop i).drop beginMarker.length) with
      | none => []
      | some j =>
        ((t.drop i).take (beginMarker.length + j + endMarker.length)) ::
          extractTikzAux fuel
            ((t.drop i).drop (beginMarker.length + j + endMarker.length))

/-- `extract_tikz_from_text(text)`, i.e. `TIKZ_RE.findall(text)` with
`TIKZ_RE = re.compile(r"(?s)\\begin\x7btikzpicture\x7d.*?\\end\x7btikzpicture\x7d")`. -/
def extract_tikz_from_text (t : List Char) : List (List Char) :=
  extractTikzAux t.length t

/-- Whitespace characters stripped by Python's `str.strip()` (ASCII part;
the lines being stripped never contain `\n`, which `split("\n")` removed). -/
def isSpaceChar (c : Char) : Bool :=
  c = ' ' || c = '\t' || c = '\n' || c = '\r' || c = '\x0b' || c = '\x0c'

/-- `line.strip()`: remove leading and trailing whitespace. -/
def stripLine (l : List Char) : List Char :=
  ((l.dropWhile isSpaceChar).reverse.dropWhile isSpaceChar).reverse

/-- `content.split("\n")`. -/
def splitOnNl : List Char → List (List Char)
  | [] => [[]]
  | c :: rest =>
    if c = '\n' then [] :: splitOnNl rest
    else
      match splitOnNl rest with
      | [] => [[c]]
      | l :: ls => (c :: l) :: ls

/-- `"\n".join(lines)`. -/
def joinNl : List (List Char) → List Char
  | [] => []
  | [l] => l
  | l :: ls => l ++ '\n' :: joinNl ls

/-- One iteration of the line loop of `_format_tikz_content`, acting on the
state `(formatted_lines, indent_level)`.  `indent_level` is tracked
faithfully although the emitted indentation never reads it (two spaces are
always used for interior lines). -/
def formatStep (acc : List (List Char) × Nat) (line : List Char) :
    List (List Char) × Nat :=
  let clean := stripLine line
  if clean.isEmpty then acc
  else
    let lvl := if endBracePrefix.isPrefixOf clean then acc.2 - 1 else acc.2
    if beginMarker.isPrefixOf clean then (acc.1 ++ [clean], 1)
    else if endMarker.isPrefixOf clean then (acc.1 ++ [clean], lvl)
    else (acc.1 ++ [' ' :: ' ' :: clean], lvl)

/-- `_format_tikz_content(content)`: split into lines, drop blank lines,
emit marker lines unindented and interior lines behind two spaces, join
with newlines, and append a final newline when missing. -/
def format_tikz_content (content : List Char) : List Char :=
  let fl := ((splitOnNl content).foldl formatStep ([], 0)).1
  let result := joinNl fl
  if result.getLast? = some '\n' then result else result ++ ['\n']

/-- `sanitize_name(path)` / `Path(p).name`: the final path component. -/
def sanitize_name (p : List Char) : List Char :=
  (p.reverse.takeWhile (fun c => c ≠ '/')).reverse

/-- Decimal digit characters, as produced by Python `f"..."` formatting. -/
def digitChar (n : Nat) : Char :=
  match n with
  | 0 => '0' | 1 => '1' | 2 => '2' | 3 => '3' | 4 => '4'
  | 5 => '5' | 6 => '6' | 7 => '7' | 8 => '8' | _ => '9'

/-- Fuel-indexed decimal rendering of a natural number (most significant
digit first); `natToDecimal` supplies enough fuel. -/
def natToDecAux : Nat → Nat → List Char
  | 0, _ => []
  | fuel + 1, n =>
    if n < 10 then [digitChar n]
    else natToDecAux fuel (n / 10) ++ [digitChar (n % 10)]

/-- Decimal rendering of a natural number, as in `f"tikz_\x7bglobal_index\x7d.tex"`. -/
def natToDecimal (n : Nat) : List Char := natToDecAux (n + 1) n

/-- The output path `str(out_dir / f"tikz_\x7bn\x7d.tex")` for global index `n`. -/
def outPathFor (outDir : List Char) (n : Nat) : List Char :=
  outDir ++ '/' :: ("tikz_".data ++ natToDecimal n ++ ".tex".data)

/-- The metadata dictionary built for each block by `write_extracted_blocks`. -/
structure BlockRecord where
  source : List Char
  out_path : List Char
  index : Nat
  content : List Char
deriving DecidableEq, Repr

/-- The write loop of `write_extracted_blocks`: for each block (with
running global index), consult the write oracle for the block's output
path; a failed write raises, abandoning the rest of the loop.  Returns the
performed writes `(path, bytes)` in order together with either the
metadata list or the propagated error. -/
def writeLoop (wo : List Char → Except IOErr Unit) (srcPath outDir : List Char) :
    List (List Char) → Nat →
      List (List Char × List Char) × Except IOErr (List BlockRecord)
  | [], _ => ([], .ok [])
  | b :: rest, counter =>
    let op := outPathFor outDir counter
    let fb := format_tikz_content b
    match wo op with
    | .error e => ([], .error e)
    | .ok _ =>
      match writeLoop wo srcPath outDir rest (counter + 1) with
      | (ws, .error e) => ((op, fb) :: ws, .error e)
      | (ws, .ok mds) =>
        ((op, fb) :: ws,
          .ok (⟨srcPath, op, counter, fb⟩ :: mds))

deriving instance DecidableEq for Except

/-- The observable outcome of one `write_extracted_blocks` call: the
directory it ensures to exist (`out_dir.mkdir(parents=True, exist_ok=True)`,
performed before the loop, blocks or not), the file writes it performed,
and its return value or propagated exception. -/
structure WriterOutcome where
  ensuredDir : List Char
  writes : List (List Char × List Char)
  result : Except IOErr (List BlockRecord)
deriving DecidableEq, Repr

/-- `write_extracted_blocks(blocks, src_path, out_dir, start_counter)`. -/
def write_extracted_blocks (wo : List Char → Except IOErr Unit)
    (blocks : List (List Char)) (srcPath outDir : List Char)
    (startCounter : Nat) : WriterOutcome :=
  let r := writeLoop wo srcPath outDir blocks startCounter
  { ensuredDir := outDir, writes := r.1, result := r.2 }

/-- The bytes `build_ai_context(metadata, ai_file)` writes to `ai_file`
(opening the file with mode `"w"` creates/truncates it even when the
metadata list is empty): per record a `### <basename>\n` header, the
content, a newline, and between consecutive records the separator
`\n---\n\n`. -/
def build_ai_context : List BlockRecord → List Char
  | [] => []
  | r :: rest =>
    ("### ".data ++ sanitize_name r.out_path ++ ['\n'])
      ++ r.content ++ ['\n']
      ++ (if rest.isEmpty then [] else "\n---\n\n".data)
      ++ build_ai_context rest

/-- `ext if ext.startswith(".") else "." + ext`. -/
def normExt (e : List Char) : List Char :=
  match e with
  | '.' :: _ => e
  | _ => '.' :: e

/-- Whether `src.rglob(f"*\x7bext\x7d")` matches a file path: the glob `*`
pattern applies to the file's name (final component), so a file matches
iff its name ends with the (dot-normalized) extension. -/
def matchesExt (ext p : List Char) : Bool :=
  ext.isSuffixOf (sanitize_name p)

/-- `find_files(src, exts)` over a filesystem modelled as the list `fs` of
file paths under `src` in traversal order: normalize each extension, then
concatenate the matching files per extension (`found_files.extend(...)`). -/
def find_files (fs : List (List Char)) (exts : List (List Char)) :
    List (List Char) :=
  (exts.map normExt).flatMap (fun ext => fs.filter (matchesExt ext))

/-- The per-file loop of `extract_from_directory`, accumulating
`all_metadata`.  A failed read — and, because the `try` block spans the
`write_extracted_blocks` call, also a failed write — lands in the
`except (UnicodeDecodeError, IOError, OSError)` handler, which skips the
file and continues. -/
def extractDirGo (read : List Char → Except IOErr (List Char))
    (wo : List Char → Except IOErr Unit) (outDir : List Char) :
    List (List Char) → List BlockRecord → List BlockRecord
  | [], acc => acc
  | p :: rest, acc =>
    match read p with
    | .error _ => extractDirGo read wo outDir rest acc
    | .ok content =>
      let blocks := extract_tikz_from_text content
      if blocks.isEmpty then extractDirGo read wo outDir rest acc
      else
        match (write_extracted_blocks wo blocks p outDir (acc.length + 1)).result with
        | .error _ => extractDirGo read wo outDir rest acc
        | .ok md => extractDirGo read wo outDir rest (acc ++ md)

/-- `extract_from_directory(src, out_dir, exts)`: discover candidates with
`find_files`, then run the per-file loop starting from an empty
`all_metadata`. -/
def extract_from_directory (fs : List (List Char))
    (read : List Char → Except IOErr (List Char))
    (wo : List Char → Except IOErr Unit)
    (outDir : List Char) (exts : List (List Char)) : List BlockRecord :=
  extractDirGo read wo outDir (find_files fs exts) []

/-! ### Occurrence lemmas -/

theorem findOcc_none {pat t : List Char} (h : findOcc pat t = none) :
    ∀ p, ¬ pat <+: t.drop p := by
  induction t with
  | nil =>
    intro p hp
    simp only [findOcc] at h
    rw [List.drop_nil] at hp
    rw [← List.isPrefixOf_iff_prefix] at hp
    simp [hp] at h
  | cons c rest ih =>
    intro p hp
    simp only [findOcc] at h
    by_cases hpre : pat.isPrefixOf (c :: rest)
    · simp [hpre] at h
    · simp only [hpre, Bool.false_eq_true, ite_false, Option.map_eq_none'] at h
      cases p with
      | zero =>
        rw [List.drop_zero] at hp
        rw [← List.isPrefixOf_iff_prefix] at hp
        exact hpre hp
      | succ q =>
        exact ih h q hp

theorem findOcc_some_prefix {pat t : List Char} {i : Nat}
    (h : findOcc pat t = some i) : pat <+: t.drop i := by
  induction t generalizing i with
  | nil =>
    simp only [findOcc] at h
    by_cases hpre : pat.isPrefixOf ([] : List Char)
    · simp only [hpre, ite_true, Option.some.injEq] at h
      subst h
      rw [List.drop_nil, ← List.isPrefixOf_iff_prefix]
      exact hpre
    · simp [hpre] at h
  | cons c rest ih =>
    simp only [findOcc] at h
    by_cases hpre : pat.isPrefixOf (c :: rest)
    · simp only [hpre, ite_true, Option.some.injEq] at h
      subst h
      rw [List.drop_zero, ← List.isPrefixOf_iff_prefix]
      exact hpre
    · simp only [hpre, Bool.false_eq_true, ite_false, Option.map_eq_some'] at h
      obtain ⟨j, hj, hij⟩ := h
      subst hij
      exact ih hj

theorem findOcc_some_least {pat t : List Char} {i : Nat}
    (h : findOcc pat t = some i) : ∀ p, p < i → ¬ pat <+: t.drop p := by
  induction t generalizing i with
  | nil =>
    intro p hp hpre
    simp only [findOcc] at h
    by_cases hb : pat.isPrefixOf ([] : List Char)
    · simp only [hb, ite_true, Option.some.injEq] at h
      omega
    · simp [hb] at h
  | cons c rest ih =>
    intro p hp hpre
    simp only [findOcc] at h
    by_cases hb : pat.isPrefixOf (c :: rest)
    · simp only [hb, ite_true, Option.some.injEq] at h
      omega
    · simp only [hb, Bool.false_eq_true, ite_false, Option.map_eq_some'] at h
      obtain ⟨j, hj, hij⟩ := h
      subst hij
      cases p with
      | zero =>
        rw [List.drop_zero, ← List.isPrefixOf_iff_prefix] at hpre
        exact hb hpre
      | succ q =>
        exact ih hj q (by omega) hpre

theorem findOcc_isSome_of_occ {pat t : List Char} {p : Nat}
    (h : pat <+: t.drop p) : (findOcc pat t).isSome := by
  induction t generalizing p with
  | nil =>
    rw [List.drop_nil, ← List.isPrefixOf_iff_prefix] at h
    simp [findOcc, h]
  | cons c rest ih =>
    simp only [findOcc]
    by_cases hb : pat.isPrefixOf (c :: rest)
    · simp [hb]
    · simp only [hb, Bool.false_eq_true, ite_false, Option.isSome_map']
      cases p with
      | zero =>
        rw [List.drop_zero, ← List.isPrefixOf_iff_prefix] at h
        exact absurd h hb
      | succ q =>
        exact ih (p := q) h

theorem occ_length_le {pat t : List Char} {p : Nat} (h : pat <+: t.drop p) :
    p + pat.length ≤ t.length ∨ pat = [] := by
  by_cases hq : p ≤ t.length
  · left
    have := h.length_le
    rw [List.length_drop] at this
    omega
  · right
    rw [List.drop_eq_nil_of_le (by omega)] at h
    exact List.prefix_nil.mp h

theorem beginMarker_length : beginMarker.length = 19 := by decide

theorem endMarker_length : endMarker.length = 17 := by decide

theorem beginMarker_ne_nil : beginMarker ≠ [] := by decide

theorem endMarker_ne_nil : endMarker ≠ [] := by decide

theorem findOcc_beginMarker_nil : findOcc beginMarker [] = none := by decide

/-! ### The unfolding equation of `extract_tikz_from_text` -/

theorem extractTikzAux_congr :
    ∀ f₁ : Nat, ∀ f₂ : Nat, ∀ t : List Char, t.length ≤ f₁ → t.length ≤ f₂ →
      extractTikzAux f₁ t = extractTikzAux f₂ t := by
  intro f₁
  induction f₁ using Nat.strong_induction_on with
  | _ f₁ ih =>
    intro f₂ t h₁ h₂
    match f₁, f₂ with
    | 0, 0 => rfl
    | 0, g + 1 =>
      have ht : t = [] := List.length_eq_zero.mp (by omega)
      subst ht
      simp [extractTikzAux, findOcc_beginMarker_nil]
    | g + 1, 0 =>
      have ht : t = [] := List.length_eq_zero.mp (by omega)
      subst ht
      simp [extractTikzAux, findOcc_beginMarker_nil]
    | g₁ + 1, g₂ + 1 =>
      cases hb : findOcc beginMarker t with
      | none => simp [extractTikzAux, hb]
      | some i =>
        cases he : findOcc endMarker ((t.drop i).drop beginMarker.length) with
        | none => simp only [extractTikzAux, hb, he]
        | some j =>
          have hpre := findOcc_some_prefix he
          have hlen := occ_length_le hpre
          rcases hlen with hlen | hnil
          · simp only [List.length_drop] at hlen
            have hr₁ :
                ((t.drop i).drop (beginMarker.length + j + endMarker.length)).length ≤ g₁ := by
              simp only [List.length_drop]
              rw [beginMarker_length, endMarker_length] at *
              omega
            have hr₂ :
                ((t.drop i).drop (beginMarker.length + j + endMarker.length)).length ≤ g₂ := by
              simp only [List.length_drop]
              rw [beginMarker_length, endMarker_length] at *
              omega
            simp only [extractTikzAux, hb, he]
            rw [ih g₁ (by omega) g₂ _ hr₁ hr₂]
          · exact absurd hnil endMarker_ne_nil

theorem extract_unfold (t : List Char) :
    extract_tikz_from_text t =
      match findOcc beginMarker t with
      | none => []
      | some i =>
        match findOcc endMarker ((t.drop i).drop beginMarker.length) with
        | none => []
        | some j =>
          ((t.drop i).take (beginMarker.length + j + endMarker.length)) ::
            extract_tikz_from_text
              ((t.drop i).drop (beginMarker.length + j + endMarker.length)) := by
  show extractTikzAux t.length t = _
  cases hn : t.length with
  | zero =>
    have ht : t = [] := List.length_eq_zero.mp hn
    subst ht
    simp [extractTikzAux, findOcc_beginMarker_nil]
  | succ g =>
    cases hb : findOcc beginMarker t with
    | none => simp [extractTikzAux, hb]
    | some i =>
      cases he : findOcc endMarker ((t.drop i).drop beginMarker.length) with
      | none => simp only [extractTikzAux, hb, he]
      | some j =>
        have hpre := findOcc_some_prefix he
        have hlen := occ_length_le hpre
        rcases hlen with hlen | hnil
        · simp only [List.length_drop] at hlen
          have hr :
              ((t.drop i).drop (beginMarker.length + j + endMarker.length)).length ≤ g := by
            simp only [List.length_drop]
            rw [beginMarker_length, endMarker_length] at *
            omega
          simp only [extractTikzAux, hb, he]
          rw [extractTikzAux_congr g _ _ hr (le_refl _)]
          rfl
        · exact absurd hnil endMarker_ne_nil

/-! ### Counting occurrences -/

theorem countOcc_eq_countP (pat t : List Char) :
    countOcc pat t =
      (List.range (t.length + 1)).countP (fun p => pat.isPrefixOf (t.drop p)) := by
  rw [countOcc, occPositions, List.countP_eq_length_filter]

theorem countOcc_eq_zero {pat t : List Char}
    (h : ∀ p, ¬ pat <+: t.drop p) : countOcc pat t = 0 := by
  rw [countOcc_eq_countP]
  rw [List.countP_eq_zero]
  intro p _
  intro hb
  rw [List.isPrefixOf_iff_prefix] at hb
  exact h p hb

/-- Splitting the occurrence count of `pat` in `t` at position `m`. -/
theorem countOcc_split (pat t : List Char) (m : Nat) (hm : m ≤ t.length) :
    countOcc pat t =
      (List.range m).countP (fun p => pat.isPrefixOf (t.drop p)) +
        countOcc pat (t.drop m) := by
  rw [countOcc_eq_countP, countOcc_eq_countP]
  have hsplit : t.length + 1 = m + (t.length - m + 1) := by omega
  rw [hsplit, List.range_add, List.countP_append, List.countP_map, List.length_drop]
  congr 1
  apply List.countP_congr
  intro q _
  simp only [Function.comp_apply]
  rw [List.drop_drop]

theorem countOcc_drop_of_no_occ_below {pat t : List Char} {m : Nat}
    (hm : m ≤ t.length) (h : ∀ p, p < m → ¬ pat <+: t.drop p) :
    countOcc pat t = countOcc pat (t.drop m) := by
  rw [countOcc_split pat t m hm]
  have : (List.range m).countP (fun p => pat.isPrefixOf (t.drop p)) = 0 := by
    rw [List.countP_eq_zero]
    intro p hp
    rw [List.mem_range] at hp
    intro hb
    rw [List.isPrefixOf_iff_prefix] at hb
    exact h p hp hb
  omega

theorem countOcc_head {pat t : List Char} {m : Nat}
    (hm : m ≤ t.length) (hm1 : 1 ≤ m) (h0 : pat <+: t)
    (h : ∀ p, 0 < p → p < m → ¬ pat <+: t.drop p) :
    countOcc pat t = 1 + countOcc pat (t.drop m) := by
  rw [countOcc_split pat t m hm]
  congr 1
  obtain ⟨k, hk⟩ : ∃ k, m = k + 1 := ⟨m - 1, by omega⟩
  subst hk
  rw [List.range_succ_eq_map, List.countP_cons, List.countP_map]
  have hz : pat.isPrefixOf t = true := by
    rw [List.isPrefixOf_iff_prefix]
    exact h0
  have hrest : (List.range k).countP
      ((fun p => pat.isPrefixOf (t.drop p)) ∘ Nat.succ) = 0 := by
    rw [List.countP_eq_zero]
    intro q hq
    rw [List.mem_range] at hq
    intro hb
    simp only [Function.comp_apply] at hb
    rw [List.isPrefixOf_iff_prefix] at hb
    exact h (q + 1) (by omega) (by omega) hb
  simp only [List.drop_zero, hz, if_true, hrest]

/-- Occurrences in a dropped suffix are occurrences in the whole list,
shifted. -/
theorem occ_drop {pat t : List Char} (m p : Nat) :
    pat <+: (t.drop m).drop p ↔ pat <+: t.drop (m + p) := by
  rw [List.drop_drop]

theorem findOcc_zero_of_prefix {pat t : List Char} (h : pat <+: t) :
    findOcc pat t = some 0 := by
  rw [← List.isPrefixOf_iff_prefix] at h
  cases t with
  | nil => simp [findOcc, h]
  | cons c rest => simp [findOcc, h]

theorem mem_occPositions' {pat t : List Char} {p : Nat} :
    p ∈ occPositions pat t ↔ p ≤ t.length ∧ pat <+: t.drop p := by
  rw [occPositions, List.mem_filter, List.mem_range, List.isPrefixOf_iff_prefix]
  constructor
  · rintro ⟨h1, h2⟩
    exact ⟨by omega, h2⟩
  · rintro ⟨h1, h2⟩
    exact ⟨by omega, h2⟩

/-- If `pat` occurs exactly once in `t`, any two occurrence positions
coincide. -/
theorem occ_unique {pat t : List Char} {p q : Nat}
    (hpat : pat ≠ []) (h : countOcc pat t = 1)
    (hp : pat <+: t.drop p) (hq : pat <+: t.drop q) : p = q := by
  obtain ⟨a, ha⟩ := List.length_eq_one.mp h
  have hpm : p ∈ occPositions pat t := by
    rw [mem_occPositions']
    rcases occ_length_le hp with hle | hnil
    · exact ⟨by omega, hp⟩
    · exact absurd hnil hpat
  have hqm : q ∈ occPositions pat t := by
    rw [mem_occPositions']
    rcases occ_length_le hq with hle | hnil
    · exact ⟨by omega, hq⟩
    · exact absurd hnil hpat
  rw [ha, List.mem_singleton] at hpm hqm
  omega

/-! ### C1: an unterminated block followed by a terminated one is merged -/

/-- C1: in a text that opens with a begin marker never matched by its own
end marker, followed by a later, properly closed block (the single end
marker of the tail), `extract_tikz_from_text` returns exactly one merged
block spanning from the first begin marker to the later block's end
marker; the middle text (including the second begin marker) is swallowed
and no error is reported. -/
theorem extract_merges_unterminated (v w : List Char)
    (h : countOcc endMarker (v ++ beginMarker ++ w ++ endMarker) = 1) :
    extract_tikz_from_text
        (beginMarker ++ v ++ beginMarker ++ w ++ endMarker) =
      [beginMarker ++ v ++ beginMarker ++ w ++ endMarker] := by
  set s : List Char := v ++ beginMarker ++ w ++ endMarker with hs
  have hts : beginMarker ++ v ++ beginMarker ++ w ++ endMarker
      = beginMarker ++ s := by
    simp [hs, List.append_assoc]
  rw [hts]
  set t : List Char := beginMarker ++ s with ht
  set mid : List Char := v ++ beginMarker ++ w with hmid
  have hsm : s = mid ++ endMarker := by
    simp [hs, hmid, List.append_assoc]
  have hb : findOcc beginMarker t = some 0 :=
    findOcc_zero_of_prefix (List.prefix_append beginMarker s)
  have hdrop : (t.drop 0).drop beginMarker.length = s := by
    rw [List.drop_zero, ht, List.drop_left]
  have hoccmid : endMarker <+: s.drop mid.length := by
    rw [hsm, List.drop_left]
  have he : findOcc endMarker ((t.drop 0).drop beginMarker.length)
      = some mid.length := by
    rw [hdrop]
    obtain ⟨q, hq⟩ := Option.isSome_iff_exists.mp (findOcc_isSome_of_occ hoccmid)
    have hqocc := findOcc_some_prefix hq
    have := occ_unique endMarker_ne_nil h hqocc hoccmid
    rw [hq, this]
  have hlen : beginMarker.length + mid.length + endMarker.length = t.length := by
    rw [ht, hsm]
    simp [List.length_append]
    omega
  rw [extract_unfold]
  simp only [hb, he]
  rw [List.drop_zero, hlen, List.take_length, List.drop_length]
  have : extract_tikz_from_text [] = [] := by decide
  rw [this]

/-- Closed instance of `extract_merges_unterminated`: both the hypothesis
and the merged extraction result at concrete middle texts. -/
theorem extract_merges_unterminated_witness :
    countOcc endMarker
        (" a ".data ++ beginMarker ++ " b ".data ++ endMarker) = 1 ∧
    extract_tikz_from_text
        (beginMarker ++ " a ".data ++ beginMarker ++ " b ".data ++ endMarker) =
      [beginMarker ++ " a ".data ++ beginMarker ++ " b ".data ++ endMarker] :=
  ⟨by decide, extract_merges_unterminated " a ".data " b ".data (by decide)⟩

/-! ### C5 part A: every returned block carries both markers literally -/

theorem drop_add (t : List Char) (a b : Nat) :
    t.drop (a + b) = (t.drop a).drop b :=
  (List.drop_drop b a t).symm

theorem extract_block_markers_aux :
    ∀ n : Nat, ∀ t : List Char, t.length ≤ n →
      ∀ b ∈ extract_tikz_from_text t, beginMarker <+: b ∧ endMarker <:+ b := by
  intro n
  induction n using Nat.strong_induction_on with
  | _ n ih =>
    intro t hlen b hmem
    rw [extract_unfold] at hmem
    cases hb : findOcc beginMarker t with
    | none => simp [hb] at hmem
    | some i =>
      cases he : findOcc endMarker ((t.drop i).drop beginMarker.length) with
      | none =>
        rw [List.drop_drop] at he
        simp [hb, he] at hmem
      | some j =>
        simp only [hb, he, List.mem_cons] at hmem
        have hbpre : beginMarker <+: t.drop i := findOcc_some_prefix hb
        have hepre : endMarker <+: ((t.drop i).drop beginMarker.length).drop j :=
          findOcc_some_prefix he
        rw [List.drop_drop] at hepre
        have hlenE := occ_length_le hepre
        rcases hlenE with hlenE | hnil
        · rw [List.length_drop, endMarker_length] at hlenE
          rcases hmem with hb1 | hrest
          · -- b is the head block
            subst hb1
            constructor
            · -- begin marker prefix
              have hbeq : beginMarker = (t.drop i).take beginMarker.length :=
                List.prefix_iff_eq_take.mp hbpre
              have : beginMarker.length + j + endMarker.length
                  = beginMarker.length + (j + endMarker.length) := by omega
              rw [this, List.take_add, ← hbeq]
              exact List.prefix_append _ _
            · -- end marker suffix
              have heeq : endMarker
                  = ((t.drop i).drop (beginMarker.length + j)).take endMarker.length := by
                exact List.prefix_iff_eq_take.mp hepre
              have : beginMarker.length + j + endMarker.length
                  = (beginMarker.length + j) + endMarker.length := by omega
              rw [this, List.take_add, ← heeq]
              exact List.suffix_append _ _
          · -- b comes from the recursive call on the remainder
            have hrlen :
                ((t.drop i).drop (beginMarker.length + j + endMarker.length)).length
                  < n := by
              simp only [List.length_drop]
              rw [beginMarker_length, endMarker_length] at *
              omega
            exact ih _ hrlen _ (le_refl _) b hrest
        · exact absurd hnil endMarker_ne_nil

/-! ### C5 part B: block count equals begin-marker count, absent
unterminated blocks and self-nesting -/

/-- Every begin-marker occurrence has at least one following end-marker
occurrence. -/
def EveryBeginClosed (t : List Char) : Prop :=
  ∀ p, beginMarker <+: t.drop p →
    ∃ q, endMarker <+: t.drop q ∧ p + beginMarker.length ≤ q

/-- Between any two begin-marker occurrences lies a complete end marker:
the environment does not nest inside itself. -/
def NoSelfNest (t : List Char) : Prop :=
  ∀ p p', beginMarker <+: t.drop p → beginMarker <+: t.drop p' → p < p' →
    ∃ q, endMarker <+: t.drop q ∧ p + beginMarker.length ≤ q ∧
      q + endMarker.length ≤ p'

theorem extract_count_aux :
    ∀ n : Nat, ∀ t : List Char, t.length ≤ n → EveryBeginClosed t → NoSelfNest t →
      (extract_tikz_from_text t).length = countOcc beginMarker t := by
  intro n
  induction n using Nat.strong_induction_on with
  | _ n ih =>
    intro t hlen h1 h2
    have hBL : beginMarker.length = 19 := beginMarker_length
    have hEL : endMarker.length = 17 := endMarker_length
    cases hb : findOcc beginMarker t with
    | none =>
      rw [extract_unfold]
      simp only [hb]
      rw [countOcc_eq_zero (findOcc_none hb)]
      rfl
    | some i =>
      have hbpre := findOcc_some_prefix hb
      cases he : findOcc endMarker ((t.drop i).drop beginMarker.length) with
      | none =>
        exfalso
        obtain ⟨q, hqocc, hqge⟩ := h1 i hbpre
        have hocc' : endMarker <+:
            ((t.drop i).drop beginMarker.length).drop (q - (i + beginMarker.length)) := by
          rw [List.drop_drop, List.drop_drop]
          have harith : i + (beginMarker.length + (q - (i + beginMarker.length))) = q := by
            omega
          rw [harith]
          exact hqocc
        have hsome := findOcc_isSome_of_occ hocc'
        rw [he] at hsome
        simp at hsome
      | some j =>
        have hepre0 := findOcc_some_prefix he
        rw [List.drop_drop, List.drop_drop] at hepre0
        -- hepre0 : endMarker occurs at absolute position i + beginMarker.length + j
        have hleast_end : ∀ q, i + beginMarker.length ≤ q →
            q < i + beginMarker.length + j → ¬ endMarker <+: t.drop q := by
          intro q hq1 hq2 hocc
          apply findOcc_some_least he (q - (i + beginMarker.length)) (by omega)
          rw [List.drop_drop, List.drop_drop]
          have harith : i + (beginMarker.length + (q - (i + beginMarker.length))) = q := by
            omega
          rw [harith]
          exact hocc
        have htlen : i + (beginMarker.length + j + endMarker.length) ≤ t.length := by
          rcases occ_length_le hepre0 with h | h
          · omega
          · exact absurd h endMarker_ne_nil
        have hnobegin : ∀ p', i < p' →
            p' < i + (beginMarker.length + j + endMarker.length) →
            ¬ beginMarker <+: t.drop p' := by
          intro p' hlt hup hocc
          obtain ⟨q, hqocc, hq1, hq2⟩ := h2 i p' hbpre hocc hlt
          by_cases hqA : q < i + beginMarker.length + j
          · exact hleast_end q hq1 hqA hqocc
          · omega
        have hc1 : countOcc beginMarker t = countOcc beginMarker (t.drop i) :=
          countOcc_drop_of_no_occ_below (by omega) (findOcc_some_least hb)
        have hc2 : countOcc beginMarker (t.drop i) = 1 +
            countOcc beginMarker
              ((t.drop i).drop (beginMarker.length + j + endMarker.length)) := by
          apply countOcc_head
          · rw [List.length_drop]
            omega
          · omega
          · exact hbpre
          · intro p hp0 hpm hocc
            rw [List.drop_drop] at hocc
            exact hnobegin (i + p) (by omega) (by omega) hocc
        have ht'eq : (t.drop i).drop (beginMarker.length + j + endMarker.length)
            = t.drop (i + (beginMarker.length + j + endMarker.length)) := by
          rw [List.drop_drop]
        have ht'len :
            ((t.drop i).drop (beginMarker.length + j + endMarker.length)).length < n := by
          rw [ht'eq, List.length_drop]
          omega
        have htrans : ∀ (X : List Char) (r : Nat),
            X <+: ((t.drop i).drop (beginMarker.length + j + endMarker.length)).drop r ↔
            X <+: t.drop (i + (beginMarker.length + j + endMarker.length) + r) := by
          intro X r
          rw [ht'eq, List.drop_drop]
        have h1' : EveryBeginClosed
            ((t.drop i).drop (beginMarker.length + j + endMarker.length)) := by
          intro r hocc
          rw [htrans] at hocc
          obtain ⟨q, hqocc, hqge⟩ := h1 _ hocc
          refine ⟨q - (i + (beginMarker.length + j + endMarker.length)), ?_, by omega⟩
          rw [htrans]
          have harith : i + (beginMarker.length + j + endMarker.length) +
              (q - (i + (beginMarker.length + j + endMarker.length))) = q := by omega
          rw [harith]
          exact hqocc
        have h2' : NoSelfNest
            ((t.drop i).drop (beginMarker.length + j + endMarker.length)) := by
          intro r r' hocc hocc' hlt
          rw [htrans] at hocc hocc'
          obtain ⟨q, hqocc, hq1, hq2⟩ := h2 _ _ hocc hocc' (by omega)
          refine ⟨q - (i + (beginMarker.length + j + endMarker.length)), ?_, by omega, by omega⟩
          rw [htrans]
          have harith : i + (beginMarker.length + j + endMarker.length) +
              (q - (i + (beginMarker.length + j + endMarker.length))) = q := by omega
          rw [harith]
          exact hqocc
        have hrec := ih _ ht'len _ (le_refl _) h1' h2'
        rw [extract_unfold]
        simp only [hb, he, List.length_cons]
        omega

/-- C5: every string returned by `extract_tikz_from_text` starts with the
exact literal begin marker and ends with the exact literal end marker
(near misses never match), and when every begin marker in `t` has at
least one following end marker and the marker does not nest inside
itself, the number of returned blocks equals the number of occurrences of
the begin marker in `t`. -/
theorem extract_tikz_markers_and_count (t : List Char) :
    (∀ b ∈ extract_tikz_from_text t, beginMarker <+: b ∧ endMarker <:+ b) ∧
    ((∀ p ∈ List.range (t.length + 1), beginMarker.isPrefixOf (t.drop p) = true →
        ∃ q ∈ List.range (t.length + 1), endMarker.isPrefixOf (t.drop q) = true ∧
          p + beginMarker.length ≤ q) →
      (∀ p ∈ List.range (t.length + 1), ∀ p' ∈ List.range (t.length + 1),
          beginMarker.isPrefixOf (t.drop p) = true →
          beginMarker.isPrefixOf (t.drop p') = true → p < p' →
          ∃ q ∈ List.range (t.length + 1), endMarker.isPrefixOf (t.drop q) = true ∧
            p + beginMarker.length ≤ q ∧ q + endMarker.length ≤ p') →
      (extract_tikz_from_text t).length = countOcc beginMarker t) := by
  constructor
  · exact extract_block_markers_aux t.length t (le_refl _)
  · intro hb1 hb2
    apply extract_count_aux t.length t (le_refl _)
    · intro p hocc
      have hple : p ≤ t.length := by
        rcases occ_length_le hocc with h | h
        · omega
        · exact absurd h beginMarker_ne_nil
      obtain ⟨q, hqmem, hqocc, hqge⟩ :=
        hb1 p (List.mem_range.mpr (by omega))
          (by rw [List.isPrefixOf_iff_prefix]; exact hocc)
      refine ⟨q, ?_, hqge⟩
      rwa [List.isPrefixOf_iff_prefix] at hqocc
    · intro p p' hocc hocc' hlt
      have hple : p ≤ t.length := by
        rcases occ_length_le hocc with h | h
        · omega
        · exact absurd h beginMarker_ne_nil
      have hple' : p' ≤ t.length := by
        rcases occ_length_le hocc' with h | h
        · omega
        · exact absurd h beginMarker_ne_nil
      obtain ⟨q, hqmem, hqocc, hq1, hq2⟩ :=
        hb2 p (List.mem_range.mpr (by omega)) p' (List.mem_range.mpr (by omega))
          (by rw [List.isPrefixOf_iff_prefix]; exact hocc)
          (by rw [List.isPrefixOf_iff_prefix]; exact hocc') hlt
      refine ⟨q, ?_, hq1, hq2⟩
      rwa [List.isPrefixOf_iff_prefix] at hqocc

/-- Closed instance of `extract_tikz_markers_and_count` on a concrete text
with one block: the returned block carries both markers and the block
count equals the begin-marker count. -/
theorem extract_tikz_markers_and_count_witness :
    (beginMarker <+: (beginMarker ++ endMarker) ∧
      endMarker <:+ (beginMarker ++ endMarker)) ∧
    (extract_tikz_from_text (beginMarker ++ endMarker)).length
      = countOcc beginMarker (beginMarker ++ endMarker) :=
  ⟨(extract_tikz_markers_and_count (beginMarker ++ endMarker)).1
      (beginMarker ++ endMarker) (by decide),
    (extract_tikz_markers_and_count (beginMarker ++ endMarker)).2
      (by decide) (by decide)⟩

/-! ### Normalization: properties of `stripLine` -/

theorem dropWhile_isSpace_idem (l : List Char) :
    (l.dropWhile isSpaceChar).dropWhile isSpaceChar = l.dropWhile isSpaceChar := by
  induction l with
  | nil => rfl
  | cons c rest ih =>
    by_cases h : isSpaceChar c
    · rw [List.dropWhile_cons_of_pos h, ih]
    · rw [List.dropWhile_cons_of_neg h, List.dropWhile_cons_of_neg h]

theorem dropWhile_eq_self_of_head {p : Char → Bool} {l : List Char} {c : Char}
    (h : l.head? = some c) (hc : ¬ p c) : l.dropWhile p = l := by
  cases l with
  | nil => simp at h
  | cons a rest =>
    simp only [List.head?_cons, Option.some.injEq] at h
    subst h
    exact List.dropWhile_cons_of_neg hc

theorem head?_dropWhile_false {p : Char → Bool} {l : List Char} {c : Char}
    (h : (l.dropWhile p).head? = some c) : p c = false := by
  have := List.head?_dropWhile_not p l
  rw [h] at this
  exact this

theorem prefix_head?_eq {l₁ l₂ : List Char} (h : l₁ <+: l₂) (hne : l₁ ≠ []) :
    l₂.head? = l₁.head? := by
  obtain ⟨u, hu⟩ := h
  subst hu
  rw [List.head?_append]
  cases l₁ with
  | nil => exact absurd rfl hne
  | cons a rest => rfl

theorem mem_stripLine {l : List Char} {c : Char} (h : c ∈ stripLine l) : c ∈ l := by
  rw [stripLine, List.mem_reverse] at h
  have h1 : c ∈ (l.dropWhile isSpaceChar).reverse :=
    (List.dropWhile_suffix isSpaceChar).subset h
  rw [List.mem_reverse] at h1
  exact (List.dropWhile_suffix isSpaceChar).subset h1

theorem stripLine_idem (l : List Char) : stripLine (stripLine l) = stripLine l := by
  rw [stripLine, stripLine]
  set A := l.dropWhile isSpaceChar with hA
  set Y := A.reverse.dropWhile isSpaceChar with hY
  -- the inner dropWhile does nothing: the head of `Y.reverse` is the head
  -- of `A`, which `dropWhile` already cleared of whitespace
  have hYA : Y.reverse <+: A := by
    rw [← A.reverse_reverse, List.reverse_prefix]
    exact List.dropWhile_suffix isSpaceChar
  have h1 : Y.reverse.dropWhile isSpaceChar = Y.reverse := by
    cases hh : Y.reverse.head? with
    | none =>
      have : Y.reverse = [] := by
        cases hYr : Y.reverse with
        | nil => rfl
        | cons a rest => rw [hYr] at hh; simp at hh
      rw [this]
      rfl
    | some c =>
      apply dropWhile_eq_self_of_head hh
      have hne : Y.reverse ≠ [] := by
        intro hcon
        rw [hcon] at hh
        simp at hh
      have := prefix_head?_eq hYA hne
      rw [hh] at this
      have hc : A.head? = some c := this
      rw [hA] at hc
      have := head?_dropWhile_false hc
      simp [this]
  rw [h1, List.reverse_reverse, hY, dropWhile_isSpace_idem]

theorem stripLine_two_spaces (s : List Char) :
    stripLine (' ' :: ' ' :: s) = stripLine s := by
  rw [stripLine, stripLine]
  rw [List.dropWhile_cons_of_pos (by decide), List.dropWhile_cons_of_pos (by decide)]

theorem stripLine_not_mem_nl {l : List Char} (h : '\n' ∉ l) : '\n' ∉ stripLine l :=
  fun hm => h (mem_stripLine hm)

/-! ### Normalization: `splitOnNl` / `joinNl` -/

theorem splitOnNl_no_nl (t : List Char) : ∀ l ∈ splitOnNl t, '\n' ∉ l := by
  induction t with
  | nil =>
    intro l hl
    simp only [splitOnNl, List.mem_singleton] at hl
    subst hl
    simp
  | cons c rest ih =>
    intro l hl
    simp only [splitOnNl] at hl
    by_cases hc : c = '\n'
    · simp only [hc, if_true] at hl
      rcases List.mem_cons.mp hl with h | h
      · subst h; simp
      · exact ih l h
    · simp only [hc, if_false] at hl
      cases hsp : splitOnNl rest with
      | nil =>
        rw [hsp] at hl
        simp only [List.mem_singleton] at hl
        subst hl
        intro hm
        rcases List.mem_cons.mp hm with h | h
        · exact hc h.symm
        · simp at h
      | cons m ms =>
        rw [hsp] at hl
        rcases List.mem_cons.mp hl with h | h
        · subst h
          intro hm
          rcases List.mem_cons.mp hm with h | h
          · exact hc h.symm
          · exact ih m (by rw [hsp]; exact List.mem_cons_self m ms) h
        · exact ih l (by rw [hsp]; exact List.mem_cons_of_mem m h)

theorem splitOnNl_ne_nil (t : List Char) : splitOnNl t ≠ [] := by
  cases t with
  | nil => simp [splitOnNl]
  | cons c rest =>
    simp only [splitOnNl]
    by_cases hc : c = '\n'
    · simp [hc]
    · simp only [hc, if_false]
      cases hsp : splitOnNl rest <;> simp

theorem splitOnNl_append_nl (l rest : List Char) (h : '\n' ∉ l) :
    splitOnNl (l ++ '\n' :: rest) = l :: splitOnNl rest := by
  induction l with
  | nil => simp [splitOnNl]
  | cons c cs ih =>
    have hc : c ≠ '\n' := fun hcon => h (hcon ▸ List.mem_cons_self c cs)
    have hcs : '\n' ∉ cs := fun hm => h (List.mem_cons_of_mem c hm)
    simp only [List.cons_append, splitOnNl, hc, if_false]
    rw [List.append_eq, ih hcs]

theorem splitOnNl_joinNl (fl : List (List Char)) (hne : fl ≠ [])
    (hnl : ∀ l ∈ fl, '\n' ∉ l) :
    splitOnNl (joinNl fl ++ ['\n']) = fl ++ [[]] := by
  induction fl with
  | nil => exact absurd rfl hne
  | cons l ls ih =>
    cases ls with
    | nil =>
      show splitOnNl (l ++ '\n' :: []) = [l, []]
      rw [splitOnNl_append_nl l [] (hnl l (List.mem_cons_self l []))]
      rfl
    | cons m ms =>
      have hllen : joinNl (l :: m :: ms) = l ++ '\n' :: joinNl (m :: ms) := rfl
      rw [hllen, List.append_assoc, List.cons_append]
      rw [splitOnNl_append_nl l _ (hnl l (List.mem_cons_self l (m :: ms)))]
      rw [ih (by simp) (fun x hx => hnl x (List.mem_cons_of_mem l hx))]
      rfl

theorem joinNl_ne_nil {fl : List (List Char)} (hne : fl ≠ [])
    (h : ∀ l ∈ fl, l ≠ []) : joinNl fl ≠ [] := by
  cases fl with
  | nil => exact absurd rfl hne
  | cons m ms =>
    cases ms with
    | nil => exact h m (List.mem_cons_self m [])
    | cons a as =>
      show m ++ '\n' :: joinNl (a :: as) ≠ []
      simp

theorem joinNl_getLast_ne_nl (fl : List (List Char)) (hne : fl ≠ [])
    (hprops : ∀ l ∈ fl, l ≠ [] ∧ '\n' ∉ l) :
    (joinNl fl).getLast? ≠ some '\n' := by
  induction fl with
  | nil => exact absurd rfl hne
  | cons l ls ih =>
    cases ls with
    | nil =>
      show l.getLast? ≠ some '\n'
      intro hcon
      have hmem := List.mem_of_getLast?_eq_some hcon
      exact (hprops l (List.mem_cons_self l [])).2 hmem
    | cons m ms =>
      have h1 : joinNl (l :: m :: ms) = l ++ '\n' :: joinNl (m :: ms) := rfl
      have hJ : joinNl (m :: ms) ≠ [] :=
        joinNl_ne_nil (by simp)
          (fun x hx => (hprops x (List.mem_cons_of_mem l hx)).1)
      rw [h1, List.getLast?_append]
      cases hjm : joinNl (m :: ms) with
      | nil => exact absurd hjm hJ
      | cons a as =>
        have h2 : ('\n' :: a :: as).getLast? = (a :: as).getLast? :=
          List.getLast?_cons_cons
        rw [h2]
        have h3 := ih (by simp) (fun x hx => hprops x (List.mem_cons_of_mem l hx))
        rw [hjm] at h3
        have h4 : (a :: as).getLast?.isSome := by
          rw [List.getLast?_isSome]
          simp
        cases hg : (a :: as).getLast? with
        | none => rw [hg] at h4; simp at h4
        | some x =>
          rw [hg] at h3
          simp only [Option.or_some]
          exact h3

/-! ### Normalization: the per-line emission function -/

/-- What `_format_tikz_content` emits for one input line: nothing for a
line that is blank after stripping; the stripped line unindented when it
starts with the begin or end marker; otherwise the stripped line behind
two spaces.  (The `indent_level` counter does not influence the emitted
text.) -/
def emitLine (l : List Char) : Option (List Char) :=
  let clean := stripLine l
  if clean.isEmpty then none
  else if beginMarker.isPrefixOf clean then some clean
  else if endMarker.isPrefixOf clean then some clean
  else some (' ' :: ' ' :: clean)

theorem foldl_formatStep (lines : List (List Char)) :
    ∀ acc : List (List Char), ∀ lvl : Nat,
      (lines.foldl formatStep (acc, lvl)).1 = acc ++ lines.filterMap emitLine := by
  induction lines with
  | nil => intro acc lvl; simp
  | cons l ls ih =>
    intro acc lvl
    rw [List.foldl_cons, List.filterMap_cons]
    show (ls.foldl formatStep (formatStep (acc, lvl) l)).1 = _
    rw [formatStep, emitLine]
    by_cases hblank : (stripLine l).isEmpty
    · simp only [hblank, if_true]
      exact ih acc lvl
    · simp only [hblank, Bool.false_eq_true, if_false]
      by_cases hbeg : beginMarker.isPrefixOf (stripLine l)
      · simp only [hbeg, if_true]
        rw [ih (acc ++ [stripLine l]) 1, List.append_assoc]
        rfl
      · simp only [hbeg, Bool.false_eq_true, if_false]
        by_cases hend : endMarker.isPrefixOf (stripLine l)
        · simp only [hend, if_true]
          rw [ih, List.append_assoc]
          rfl
        · simp only [hend, Bool.false_eq_true, if_false]
          rw [ih, List.append_assoc]
          rfl

theorem emitLine_props {l u : List Char} (h : emitLine l = some u) :
    u ≠ [] ∧ (∀ c ∈ u, c ∈ l ∨ c = ' ') := by
  rw [emitLine] at h
  by_cases hblank : (stripLine l).isEmpty
  · simp [hblank] at h
  · simp only [hblank, Bool.false_eq_true, if_false] at h
    have hne : stripLine l ≠ [] := by
      intro hcon
      rw [hcon] at hblank
      simp at hblank
    by_cases hbeg : beginMarker.isPrefixOf (stripLine l)
    · simp only [hbeg, if_true, Option.some.injEq] at h
      subst h
      exact ⟨hne, fun c hc => Or.inl (mem_stripLine hc)⟩
    · simp only [hbeg, Bool.false_eq_true, if_false] at h
      by_cases hend : endMarker.isPrefixOf (stripLine l)
      · simp only [hend, if_true, Option.some.injEq] at h
        subst h
        exact ⟨hne, fun c hc => Or.inl (mem_stripLine hc)⟩
      · simp only [hend, Bool.false_eq_true, if_false, Option.some.injEq] at h
        subst h
        refine ⟨by simp, fun c hc => ?_⟩
        rcases List.mem_cons.mp hc with h | h
        · exact Or.inr h
        rcases List.mem_cons.mp h with h | h
        · exact Or.inr h
        · exact Or.inl (mem_stripLine h)

/-- `_format_tikz_content` in closed form: the kept lines joined by
newlines, plus exactly one final newline. -/
theorem format_eq (content : List Char) :
    format_tikz_content content
      = joinNl ((splitOnNl content).filterMap emitLine) ++ ['\n'] := by
  rw [format_tikz_content]
  rw [foldl_formatStep (splitOnNl content) [] 0, List.nil_append]
  cases hfl : (splitOnNl content).filterMap emitLine with
  | nil => rfl
  | cons u us =>
    have hprops : ∀ x ∈ u :: us, x ≠ [] ∧ '\n' ∉ x := by
      intro x hx
      rw [← hfl] at hx
      obtain ⟨l, hl, hel⟩ := List.mem_filterMap.mp hx
      obtain ⟨hne, hsub⟩ := emitLine_props hel
      refine ⟨hne, fun hm => ?_⟩
      rcases hsub '\n' hm with h | h
      · exact splitOnNl_no_nl content l hl h
      · exact absurd h (by decide)
    have hlast := joinNl_getLast_ne_nl (u :: us) (by simp) hprops
    simp only [ne_eq] at hlast
    rw [if_neg hlast]

/-! ### Normalization: idempotence -/

theorem emitLine_canonical {l u : List Char} (h : emitLine l = some u) :
    emitLine u = some u := by
  rw [emitLine] at h
  by_cases hblank : (stripLine l).isEmpty
  · simp [hblank] at h
  · simp only [hblank, Bool.false_eq_true, if_false] at h
    by_cases hbeg : beginMarker.isPrefixOf (stripLine l)
    · simp only [hbeg, if_true, Option.some.injEq] at h
      subst h
      rw [emitLine, stripLine_idem, hbeg]
      simp only [hblank, Bool.false_eq_true, if_false, if_true]
    · simp only [hbeg, Bool.false_eq_true, if_false] at h
      by_cases hend : endMarker.isPrefixOf (stripLine l)
      · simp only [hend, if_true, Option.some.injEq] at h
        subst h
        rw [emitLine, stripLine_idem, hend]
        simp only [hblank, hbeg, Bool.false_eq_true, if_false, if_true]
      · simp only [hend, Bool.false_eq_true, if_false, Option.some.injEq] at h
        subst h
        rw [emitLine, stripLine_two_spaces, stripLine_idem]
        simp only [hblank, hbeg, hend, Bool.false_eq_true, if_false]

theorem filterMap_emitLine_fixpoint (fl : List (List Char))
    (h : ∀ v ∈ fl, emitLine v = some v) : fl.filterMap emitLine = fl := by
  induction fl with
  | nil => rfl
  | cons v vs ih =>
    rw [List.filterMap_cons_some (h v (List.mem_cons_self v vs))]
    rw [ih (fun x hx => h x (List.mem_cons_of_mem v hx))]

/-- The lines kept by normalization are nonempty and newline-free. -/
theorem emit_lines_props (content : List Char) :
    ∀ x ∈ (splitOnNl content).filterMap emitLine, x ≠ [] ∧ '\n' ∉ x := by
  intro x hx
  obtain ⟨l, hl, hel⟩ := List.mem_filterMap.mp hx
  obtain ⟨hne, hsub⟩ := emitLine_props hel
  refine ⟨hne, fun hm => ?_⟩
  rcases hsub '\n' hm with h | h
  · exact splitOnNl_no_nl content l hl h
  · exact absurd h (by decide)

/-- C6: normalization is a fixed point under self-composition, for every
input string. -/
theorem format_tikz_content_idempotent (x : List Char) :
    format_tikz_content (format_tikz_content x) = format_tikz_content x := by
  rw [format_eq x]
  cases hfl : (splitOnNl x).filterMap emitLine with
  | nil => decide
  | cons u us =>
    rw [format_eq (joinNl (u :: us) ++ ['\n'])]
    have hprops : ∀ v ∈ u :: us, v ≠ [] ∧ '\n' ∉ v := by
      rw [← hfl]
      exact emit_lines_props x
    rw [splitOnNl_joinNl (u :: us) (by simp) (fun v hv => (hprops v hv).2)]
    rw [List.filterMap_append]
    have h0 : ([([] : List Char)]).filterMap emitLine = [] := by decide
    have hcanon : ∀ v ∈ u :: us, emitLine v = some v := by
      intro v hv
      rw [← hfl] at hv
      obtain ⟨l, hl, hel⟩ := List.mem_filterMap.mp hv
      exact emitLine_canonical hel
    rw [h0, filterMap_emitLine_fixpoint (u :: us) hcanon, List.append_nil]

/-! ### C4: line-by-line characterization of normalization -/

/-- C4 (amended): normalization splits the raw block into lines, drops
every line that is blank after stripping, emits each remaining line
stripped of its surrounding whitespace — at zero indentation when the
stripped line starts with the begin marker or the end marker literal
(`emitLine`), and behind exactly two spaces otherwise — joins the kept
lines with newlines, and ends the result with exactly one trailing
newline. -/
theorem normalize_line_classification (b : List Char) :
    format_tikz_content b
      = joinNl ((splitOnNl b).filterMap emitLine) ++ ['\n'] ∧
    ['\n'] <:+ format_tikz_content b ∧
    ¬ ['\n', '\n'] <:+ format_tikz_content b := by
  refine ⟨format_eq b, ?_, ?_⟩
  · rw [format_eq b]
    exact List.suffix_append _ _
  · rw [format_eq b]
    intro hcon
    obtain ⟨u, hu⟩ := hcon
    have hu' : (u ++ ['\n']) ++ ['\n']
        = joinNl ((splitOnNl b).filterMap emitLine) ++ ['\n'] := by
      rw [← hu, List.append_assoc]
      rfl
    have hg : u ++ ['\n'] = joinNl ((splitOnNl b).filterMap emitLine) :=
      List.append_cancel_right hu'
    cases hfl : (splitOnNl b).filterMap emitLine with
    | nil =>
      rw [hfl] at hg
      simp [joinNl] at hg
    | cons v vs =>
      have hlast := joinNl_getLast_ne_nl (v :: vs) (by simp)
        (by rw [← hfl]; exact emit_lines_props b)
      rw [← hfl, ← hg] at hlast
      apply hlast
      rw [List.getLast?_append]
      rfl

/-- C4 counterexample: for a raw block whose end marker shares its line
with other content (an actual output of the extractor), the line carrying
the end marker is emitted behind two spaces, not at zero indentation,
because the end marker does not start that line. -/
theorem normalize_endline_indent_cex :
    extract_tikz_from_text
        ("\\begin\x7btikzpicture\x7d\nx \\end\x7btikzpicture\x7d".data)
      = ["\\begin\x7btikzpicture\x7d\nx \\end\x7btikzpicture\x7d".data] ∧
    format_tikz_content ("\\begin\x7btikzpicture\x7d\nx \\end\x7btikzpicture\x7d".data)
      = "\\begin\x7btikzpicture\x7d\n  x \\end\x7btikzpicture\x7d\n".data ∧
    (splitOnNl (format_tikz_content
        ("\\begin\x7btikzpicture\x7d\nx \\end\x7btikzpicture\x7d".data)))[1]?
      = some ("  x \\end\x7btikzpicture\x7d".data) := by
  refine ⟨by decide, by decide, by decide⟩

/-! ### Decimal rendering is injective -/

/-- Numeric value of a decimal digit character. -/
def charVal (c : Char) : Nat :=
  match c with
  | '0' => 0 | '1' => 1 | '2' => 2 | '3' => 3 | '4' => 4
  | '5' => 5 | '6' => 6 | '7' => 7 | '8' => 8 | '9' => 9
  | _ => 0

/-- Numeric value of a digit string (most significant first). -/
def decVal (l : List Char) : Nat :=
  l.foldl (fun a c => a * 10 + charVal c) 0

theorem charVal_digitChar {n : Nat} (h : n < 10) :
    charVal (digitChar n) = n := by
  interval_cases n <;> rfl

theorem decVal_append_digit (l : List Char) (c : Char) :
    decVal (l ++ [c]) = (decVal l) * 10 + charVal c := by
  rw [decVal, decVal, List.foldl_append]
  rfl

theorem decVal_natToDecAux :
    ∀ f : Nat, ∀ n : Nat, n < f → decVal (natToDecAux f n) = n := by
  intro f
  induction f using Nat.strong_induction_on with
  | _ f ih =>
    intro n hn
    match f with
    | 0 => omega
    | g + 1 =>
      rw [natToDecAux]
      by_cases h10 : n < 10
      · rw [if_pos h10]
        show 0 * 10 + charVal (digitChar n) = n
        rw [charVal_digitChar h10]
        omega
      · rw [if_neg h10]
        rw [decVal_append_digit]
        rw [ih g (by omega) (n / 10) (by omega)]
        rw [charVal_digitChar (by omega)]
        omega

theorem natToDecimal_inj {m n : Nat} (h : natToDecimal m = natToDecimal n) :
    m = n := by
  have hm := decVal_natToDecAux (m + 1) m (by omega)
  have hn := decVal_natToDecAux (n + 1) n (by omega)
  rw [natToDecimal, natToDecimal] at h
  rw [← hm, ← hn, h]

theorem outPathFor_inj {outDir : List Char} {m n : Nat}
    (h : outPathFor outDir m = outPathFor outDir n) : m = n := by
  rw [outPathFor, outPathFor] at h
  have h1 := List.append_cancel_left h
  have h2 : "tikz_".data ++ (natToDecimal m ++ ".tex".data)
      = "tikz_".data ++ (natToDecimal n ++ ".tex".data) := by
    have := List.cons_injective.eq_iff.mp h1
    simpa [List.append_assoc] using this
  have h3 := List.append_cancel_left h2
  have h4 := List.append_cancel_right h3
  exact natToDecimal_inj h4

/-! ### The writer under an always-succeeding write oracle -/

/-- A write oracle under which every write succeeds. -/
def allOk : List Char → Except IOErr Unit := fun _ => .ok ()

theorem writeLoop_allOk (srcPath outDir : List Char) :
    ∀ (blocks : List (List Char)) (counter : Nat),
      writeLoop allOk srcPath outDir blocks counter
        = (blocks.mapIdx (fun i b =>
             (outPathFor outDir (counter + i), format_tikz_content b)),
           .ok (blocks.mapIdx (fun i b =>
             ⟨srcPath, outPathFor outDir (counter + i), counter + i,
               format_tikz_content b⟩))) := by
  intro blocks
  induction blocks with
  | nil => intro counter; rfl
  | cons b rest ih =>
    intro counter
    simp only [writeLoop, allOk]
    rw [ih (counter + 1)]
    simp only [List.mapIdx_cons, Nat.add_zero]
    have harith : ∀ i : Nat, counter + 1 + i = counter + (i + 1) := by omega
    simp only [harith]

/-- C7: `write_extracted_blocks` ensures the output directory exists even
for an empty block list (returning no records); for `blocks[i]` it
returns, in input order, the record with global index `startCounter + i`,
output path `outDir/tikz_(startCounter+i).tex`, content the normalized
block — which is byte-for-byte what it writes to that path — and the
original (unsanitized) source path. -/
theorem write_extracted_blocks_spec (blocks : List (List Char))
    (srcPath outDir : List Char) (startCounter : Nat) :
    (write_extracted_blocks allOk blocks srcPath outDir startCounter).ensuredDir
      = outDir ∧
    (write_extracted_blocks allOk blocks srcPath outDir startCounter).result
      = .ok (blocks.mapIdx (fun i b =>
          ⟨srcPath, outPathFor outDir (startCounter + i), startCounter + i,
            format_tikz_content b⟩)) ∧
    (write_extracted_blocks allOk blocks srcPath outDir startCounter).writes
      = blocks.mapIdx (fun i b =>
          (outPathFor outDir (startCounter + i), format_tikz_content b)) := by
  rw [write_extracted_blocks]
  rw [writeLoop_allOk srcPath outDir blocks startCounter]
  exact ⟨rfl, rfl, rfl⟩

/-! ### C3: write errors — fatal to the writer, swallowed by the
orchestrator -/

theorem writeLoop_error_of_fail
    (wo : List Char → Except IOErr Unit) (srcPath outDir : List Char) :
    ∀ (blocks : List (List Char)) (counter : Nat),
      (∃ i, i < blocks.length ∧
        ∃ e, wo (outPathFor outDir (counter + i)) = .error e) →
      ∃ e, (writeLoop wo srcPath outDir blocks counter).2 = .error e := by
  intro blocks
  induction blocks with
  | nil =>
    intro counter ⟨i, hi, _⟩
    simp at hi
  | cons b rest ih =>
    intro counter ⟨i, hi, e, he⟩
    simp only [writeLoop]
    cases hw : wo (outPathFor outDir counter) with
    | error e' => exact ⟨e', rfl⟩
    | ok u =>
      have hipos : i ≠ 0 := by
        intro hcon
        subst hcon
        rw [Nat.add_zero] at he
        rw [he] at hw
        exact Except.noConfusion hw
      obtain ⟨i', rfl⟩ : ∃ i', i = i' + 1 := ⟨i - 1, by omega⟩
      have hrest : ∃ e, (writeLoop wo srcPath outDir rest (counter + 1)).2
          = .error e := by
        apply ih (counter + 1)
        refine ⟨i', by simp at hi; omega, e, ?_⟩
        have : counter + 1 + i' = counter + (i' + 1) := by omega
        rw [this]
        exact he
      obtain ⟨e'', he''⟩ := hrest
      cases hw2 : writeLoop wo srcPath outDir rest (counter + 1) with
      | mk ws res =>
        rw [hw2] at he''
        simp only at he''
        subst he''
        exact ⟨e'', rfl⟩

/-- C3 (amended): a failed block write aborts the whole
`write_extracted_blocks` call with that error — the writer never
suppresses it, the exception reaches its caller `extract_from_directory` —
but the `except (UnicodeDecodeError, IOError, OSError)` handler wrapping
each file's processing in `extract_from_directory` catches it like a read
failure: the file is skipped, the batch continues, and no error reaches
the caller of `extract_from_directory`. -/
theorem write_error_propagation :
    (∀ (wo : List Char → Except IOErr Unit) (blocks : List (List Char))
        (srcPath outDir : List Char) (startCounter : Nat),
      (∃ i, i < blocks.length ∧
        ∃ e, wo (outPathFor outDir (startCounter + i)) = .error e) →
      ∃ e, (write_extracted_blocks wo blocks srcPath outDir startCounter).result
        = .error e) ∧
    (∀ (read : List Char → Except IOErr (List Char))
        (wo : List Char → Except IOErr Unit) (outDir p : List Char)
        (rest : List (List Char)) (acc : List BlockRecord)
        (content : List Char),
      read p = .ok content →
      (extract_tikz_from_text content).isEmpty = false →
      (∃ e, (write_extracted_blocks wo (extract_tikz_from_text content) p outDir
          (acc.length + 1)).result = .error e) →
      extractDirGo read wo outDir (p :: rest) acc
        = extractDirGo read wo outDir rest acc) := by
  constructor
  · intro wo blocks srcPath outDir startCounter h
    exact writeLoop_error_of_fail wo srcPath outDir blocks startCounter h
  · intro read wo outDir p rest acc content hr hne ⟨e, he⟩
    simp only [extractDirGo, hr]
    simp only [hne, Bool.false_eq_true, if_false]
    rw [he]

def cexOutDir : List Char := "out".data

def cexP1 : List Char := "a/f1.tex".data

def cexP2 : List Char := "a/f2.tex".data

def cexT1 : List Char :=
  beginMarker ++ "a".data ++ endMarker ++ beginMarker ++ "b".data ++ endMarker

def cexT2 : List Char := beginMarker ++ "c".data ++ endMarker

def cexRead : List Char → Except IOErr (List Char) := fun p =>
  if p = cexP1 then .ok cexT1
  else if p = cexP2 then .ok cexT2
  else .error .osError

/-- A write oracle under which writing `out/tikz_2.tex` fails (disk full)
and every other write succeeds. -/
def cexWo : List Char → Except IOErr Unit := fun op =>
  if op = outPathFor cexOutDir 2 then .error .osError else .ok ()

/-- C3 counterexample: in a run over two files where the first file's
second block hits a write error, `write_extracted_blocks` does propagate
the error to `extract_from_directory`, but `extract_from_directory`
swallows it: it skips the first file, reuses its counter, and returns
normally with only the second file's record — the write error is not
surfaced to its caller. -/
theorem write_error_suppressed_cex :
    (write_extracted_blocks cexWo (extract_tikz_from_text cexT1) cexP1 cexOutDir
        1).result = .error .osError ∧
    extract_from_directory [cexP1, cexP2] cexRead cexWo cexOutDir [".tex".data]
      = [⟨cexP2, outPathFor cexOutDir 1, 1,
          beginMarker ++ "c".data ++ endMarker ++ ['\n']⟩] :=
  ⟨by decide, by decide⟩

/-- Closed instance of `write_error_propagation` at the counterexample
inputs: the writer call fails, and the orchestrator step over the failing
file reduces to skipping it. -/
theorem write_error_propagation_witness :
    (∃ e, (write_extracted_blocks cexWo (extract_tikz_from_text cexT1) cexP1
        cexOutDir 1).result = .error e) ∧
    extractDirGo cexRead cexWo cexOutDir (cexP1 :: [cexP2]) []
      = extractDirGo cexRead cexWo cexOutDir [cexP2] [] :=
  ⟨write_error_propagation.1 cexWo (extract_tikz_from_text cexT1) cexP1
      cexOutDir 1 ⟨1, by decide, .osError, by decide⟩,
    write_error_propagation.2 cexRead cexWo cexOutDir cexP1 [cexP2] [] cexT1
      (by decide) (by decide) ⟨.osError, by decide⟩⟩

/-! ### C8: read failures are skipped silently -/

theorem extractDirGo_filter_readable
    (read : List Char → Except IOErr (List Char))
    (wo : List Char → Except IOErr Unit) (outDir : List Char) :
    ∀ (files : List (List Char)) (acc : List BlockRecord),
      extractDirGo read wo outDir files acc
        = extractDirGo read wo outDir
            (files.filter (fun p => (read p).isOk)) acc := by
  intro files
  induction files with
  | nil => intro acc; rfl
  | cons p rest ih =>
    intro acc
    cases hr : read p with
    | error e =>
      have hok : (read p).isOk = false := by rw [hr]; rfl
      simp only [List.filter_cons, hok, Bool.false_eq_true, if_false]
      simp only [extractDirGo, hr]
      exact ih acc
    | ok content =>
      have hok : (read p).isOk = true := by rw [hr]; rfl
      simp only [List.filter_cons, hok, if_true]
      simp only [extractDirGo, hr]
      by_cases hempty : (extract_tikz_from_text content).isEmpty
      · simp only [hempty, if_true]
        exact ih acc
      · simp only [hempty, Bool.false_eq_true, if_false]
        cases hw : (write_extracted_blocks wo (extract_tikz_from_text content) p
            outDir (acc.length + 1)).result with
        | error e => exact ih acc
        | ok md => exact ih (acc ++ md)

/-- C8: a candidate file whose read fails (decode error, permission
error, any I/O error) is skipped silently: the orchestrated run returns
exactly what a run over only the readable candidates returns — no
exception escapes (the result is an ordinary record list), no metadata is
produced for a failed file, and the readable files' records are all
present. -/
theorem read_errors_skipped (fs : List (List Char))
    (read : List Char → Except IOErr (List Char))
    (wo : List Char → Except IOErr Unit)
    (outDir : List Char) (exts : List (List Char)) :
    extract_from_directory fs read wo outDir exts
      = extractDirGo read wo outDir
          ((find_files fs exts).filter (fun p => (read p).isOk)) [] := by
  rw [extract_from_directory]
  exact extractDirGo_filter_readable read wo outDir (find_files fs exts) []

/-! ### C2: dense global indices and collision-free output paths -/

/-- Total number of blocks an orchestrated run produces over the given
candidate files: per candidate, the number of extracted blocks of its
(successfully read) contents, zero for an unreadable file. -/
def runTotal (read : List Char → Except IOErr (List Char)) :
    List (List Char) → Nat
  | [] => 0
  | p :: rest =>
    (match read p with
      | .ok c => (extract_tikz_from_text c).length
      | .error _ => 0) + runTotal read rest

theorem mapIdx_records_map_index (srcPath outDir : List Char) :
    ∀ (blocks : List (List Char)) (start : Nat),
      ((blocks.mapIdx (fun i b =>
          (⟨srcPath, outPathFor outDir (start + i), start + i,
            format_tikz_content b⟩ : BlockRecord))).map (fun r => r.index))
        = List.range' start blocks.length := by
  intro blocks
  induction blocks with
  | nil => intro start; rfl
  | cons b rest ih =>
    intro start
    rw [List.mapIdx_cons]
    rw [List.map_cons, List.length_cons, List.range'_succ]
    have harith : ∀ i : Nat, start + 1 + i = start + (i + 1) := by omega
    simp only [Nat.add_zero]
    have h2 := ih (start + 1)
    simp only [harith] at h2
    rw [h2]

theorem mapIdx_records_out_path (srcPath outDir : List Char)
    (blocks : List (List Char)) (start : Nat) :
    ∀ r ∈ blocks.mapIdx (fun i b =>
        (⟨srcPath, outPathFor outDir (start + i), start + i,
          format_tikz_content b⟩ : BlockRecord)),
      r.out_path = outPathFor outDir r.index := by
  intro r hr
  rw [List.mem_mapIdx] at hr
  obtain ⟨i, hi, hr⟩ := hr
  rw [← hr]

theorem extractDirGo_allOk_spec
    (read : List Char → Except IOErr (List Char)) (outDir : List Char) :
    ∀ (files : List (List Char)) (acc : List BlockRecord),
      ((extractDirGo read allOk outDir files acc).map (fun r => r.index)
        = acc.map (fun r => r.index)
            ++ List.range' (acc.length + 1) (runTotal read files)) ∧
      (∀ r ∈ extractDirGo read allOk outDir files acc,
        r ∈ acc ∨ r.out_path = outPathFor outDir r.index) := by
  intro files
  induction files with
  | nil =>
    intro acc
    refine ⟨by simp [extractDirGo, runTotal], fun r hr => Or.inl hr⟩
  | cons p rest ih =>
    intro acc
    cases hr : read p with
    | error e =>
      simp only [extractDirGo, hr, runTotal, Nat.zero_add]
      exact ih acc
    | ok content =>
      simp only [extractDirGo, hr, runTotal]
      by_cases hempty : (extract_tikz_from_text content).isEmpty
      · have hlen0 : (extract_tikz_from_text content).length = 0 := by
          rw [List.isEmpty_iff_length_eq_zero] at hempty
          exact hempty
        simp only [hempty, if_true, hlen0, Nat.zero_add]
        exact ih acc
      · simp only [hempty, Bool.false_eq_true, if_false]
        rw [(write_extracted_blocks_spec (extract_tikz_from_text content) p outDir
          (acc.length + 1)).2.1]
        obtain ⟨ihmap, ihmem⟩ := ih (acc ++
          (extract_tikz_from_text content).mapIdx (fun i b =>
            (⟨p, outPathFor outDir (acc.length + 1 + i), acc.length + 1 + i,
              format_tikz_content b⟩ : BlockRecord)))
        constructor
        · rw [ihmap, List.map_append, List.append_assoc]
          rw [mapIdx_records_map_index p outDir]
          rw [List.length_append, List.length_mapIdx]
          have harith : acc.length + (extract_tikz_from_text content).length + 1
              = acc.length + 1 + (extract_tikz_from_text content).length := by omega
          rw [harith, List.range'_append_1]
          rw [Nat.add_comm (runTotal read rest) (extract_tikz_from_text content).length]
        · intro r hrmem
          rcases ihmem r hrmem with hin | hpath
          · rcases List.mem_append.mp hin with hin | hin
            · exact Or.inl hin
            · exact Or.inr (mapIdx_records_out_path p outDir _ _ r hin)
          · exact Or.inr hpath

/-- C2: over candidate files that are all readable, the records returned
by `extract_from_directory` have `index` values forming exactly the dense
strictly increasing sequence `1, 2, …, total` (where `total` is the sum
of the files' block counts, not reset per source file), each record's
output path is determined solely by its index, and consequently no two
records share an output path. -/
theorem extract_from_directory_indices (fs : List (List Char))
    (read : List Char → Except IOErr (List Char))
    (outDir : List Char) (exts : List (List Char))
    (hreadable : ∀ p ∈ find_files fs exts, (read p).isOk = true) :
    ((extract_from_directory fs read allOk outDir exts).map (fun r => r.index)
      = List.range' 1 (runTotal read (find_files fs exts))) ∧
    ((extract_from_directory fs read allOk outDir exts).length
      = runTotal read (find_files fs exts)) ∧
    (∀ r ∈ extract_from_directory fs read allOk outDir exts,
      r.out_path = outPathFor outDir r.index) ∧
    ((extract_from_directory fs read allOk outDir exts).map
      (fun r => r.out_path)).Nodup := by
  obtain ⟨hmap, hmem⟩ := extractDirGo_allOk_spec read outDir (find_files fs exts) []
  have hmap' : (extract_from_directory fs read allOk outDir exts).map
      (fun r => r.index) = List.range' 1 (runTotal read (find_files fs exts)) := by
    rw [extract_from_directory, hmap]
    rfl
  have hpath : ∀ r ∈ extract_from_directory fs read allOk outDir exts,
      r.out_path = outPathFor outDir r.index := by
    intro r hr
    rw [extract_from_directory] at hr
    rcases hmem r hr with hin | hp
    · simp at hin
    · exact hp
  refine ⟨hmap', ?_, hpath, ?_⟩
  · have := congrArg List.length hmap'
    rwa [List.length_map, List.length_range'] at this
  · have heq : (extract_from_directory fs read allOk outDir exts).map
        (fun r => r.out_path)
        = (extract_from_directory fs read allOk outDir exts).map
            (fun r => outPathFor outDir r.index) :=
      List.map_congr_left hpath
    rw [heq]
    have hcomp : (extract_from_directory fs read allOk outDir exts).map
        (fun r => outPathFor outDir r.index)
        = ((extract_from_directory fs read allOk outDir exts).map
            (fun r => r.index)).map (fun n => outPathFor outDir n) := by
      rw [List.map_map]
      rfl
    rw [hcomp, hmap']
    apply List.Nodup.map
    · intro a b hab
      exact outPathFor_inj hab
    · exact List.nodup_range' 1 _

def c2P1 : List Char := "d/a.tex".data

def c2P2 : List Char := "d/b.tex".data

def c2Read : List Char → Except IOErr (List Char) := fun p =>
  if p = c2P1 then .ok (beginMarker ++ endMarker)
  else if p = c2P2 then
    .ok (beginMarker ++ endMarker ++ beginMarker ++ endMarker)
  else .error .osError

/-- Closed instance of `extract_from_directory_indices`: two readable
files with one and two blocks yield indices `[1, 2, 3]` and pairwise
distinct output paths. -/
theorem extract_from_directory_indices_witness :
    ((extract_from_directory [c2P1, c2P2] c2Read allOk "o".data [".tex".data]).map
        (fun r => r.index)
      = List.range' 1 (runTotal c2Read (find_files [c2P1, c2P2] [".tex".data]))) ∧
    ((extract_from_directory [c2P1, c2P2] c2Read allOk "o".data [".tex".data]).length
      = runTotal c2Read (find_files [c2P1, c2P2] [".tex".data])) ∧
    ((extract_from_directory [c2P1, c2P2] c2Read allOk "o".data [".tex".data]).map
        (fun r => r.out_path)).Nodup :=
  ⟨(extract_from_directory_indices [c2P1, c2P2] c2Read "o".data [".tex".data]
      (by decide)).1,
    (extract_from_directory_indices [c2P1, c2P2] c2Read "o".data [".tex".data]
      (by decide)).2.1,
    (extract_from_directory_indices [c2P1, c2P2] c2Read "o".data [".tex".data]
      (by decide)).2.2.2⟩

/-! ### C10: duplicate extension entries duplicate files and records -/

theorem extractDirGo_allOk_length
    (read : List Char → Except IOErr (List Char)) (outDir : List Char)
    (files : List (List Char)) :
    (extractDirGo read allOk outDir files []).length = runTotal read files := by
  have h := (extractDirGo_allOk_spec read outDir files []).1
  have h2 := congrArg List.length h
  rwa [List.length_map, List.map_nil, List.nil_append, List.length_range'] at h2

/-- C10: when two extension entries normalize to the same dotted suffix
(e.g. `[".tex", "tex"]`), `find_files` lists every matching file once per
entry — the concatenated per-extension result repeats the whole matching
set, each matching file occurs at least twice — and a downstream
`extract_from_directory` run over such a duplicated candidate list
processes the file's blocks once per occurrence, returning twice as many
records as the file has blocks. -/
theorem find_files_duplicate_processing (e₁ e₂ : List Char)
    (hdup : normExt e₁ = normExt e₂) :
    (∀ fs : List (List Char),
      find_files fs [e₁, e₂]
        = fs.filter (matchesExt (normExt e₁))
            ++ fs.filter (matchesExt (normExt e₁))) ∧
    (∀ fs : List (List Char), ∀ p ∈ fs, matchesExt (normExt e₁) p = true →
      2 ≤ (find_files fs [e₁, e₂]).count p) ∧
    (∀ (read : List Char → Except IOErr (List Char)) (outDir p c : List Char),
      read p = .ok c → matchesExt (normExt e₁) p = true →
      (extract_from_directory [p] read allOk outDir [e₁, e₂]).length
        = 2 * (extract_tikz_from_text c).length) := by
  have hff : ∀ fs : List (List Char),
      find_files fs [e₁, e₂]
        = fs.filter (matchesExt (normExt e₁))
            ++ fs.filter (matchesExt (normExt e₁)) := by
    intro fs
    rw [find_files]
    rw [List.map_cons, List.map_cons, List.map_nil]
    rw [List.flatMap_cons, List.flatMap_cons, List.flatMap_nil]
    rw [← hdup, List.append_nil]
  refine ⟨hff, ?_, ?_⟩
  · intro fs p hp hmatch
    rw [hff fs, List.count_append]
    have hmem : p ∈ fs.filter (matchesExt (normExt e₁)) :=
      List.mem_filter.mpr ⟨hp, hmatch⟩
    have hpos := List.count_pos_iff.mpr hmem
    omega
  · intro read outDir p c hr hmatch
    rw [extract_from_directory, hff [p]]
    have hfp : ([p] : List (List Char)).filter (matchesExt (normExt e₁)) = [p] := by
      rw [List.filter_cons, if_pos hmatch]
      rfl
    rw [hfp]
    show (extractDirGo read allOk outDir [p, p] []).length
      = 2 * (extract_tikz_from_text c).length
    rw [extractDirGo_allOk_length read outDir [p, p]]
    show (match read p with
        | .ok c => (extract_tikz_from_text c).length
        | .error _ => 0) +
      ((match read p with
        | .ok c => (extract_tikz_from_text c).length
        | .error _ => 0) + 0) = 2 * (extract_tikz_from_text c).length
    simp only [hr]
    omega

/-- Closed instance of `find_files_duplicate_processing` for extensions
`".tex"` and `"tex"` over a one-file filesystem with a one-block file. -/
theorem find_files_duplicate_processing_witness :
    (find_files ["a/x.tex".data] [".tex".data, "tex".data]
      = ["a/x.tex".data, "a/x.tex".data]) ∧
    2 ≤ (find_files ["a/x.tex".data] [".tex".data, "tex".data]).count "a/x.tex".data ∧
    (extract_from_directory ["a/x.tex".data]
        (fun _ => .ok (beginMarker ++ endMarker)) allOk "o".data
        [".tex".data, "tex".data]).length
      = 2 * (extract_tikz_from_text (beginMarker ++ endMarker)).length :=
  ⟨by
    have h := (find_files_duplicate_processing ".tex".data "tex".data
      (by decide)).1 ["a/x.tex".data]
    rw [h]
    decide,
  (find_files_duplicate_processing ".tex".data "tex".data (by decide)).2.1
    ["a/x.tex".data] "a/x.tex".data (by decide) (by decide),
  (find_files_duplicate_processing ".tex".data "tex".data (by decide)).2.2
    (fun _ => .ok (beginMarker ++ endMarker)) "o".data "a/x.tex".data
    (beginMarker ++ endMarker) rfl (by decide)⟩

/-! ### C9: the aggregate context file -/

/-- The 3-character divider written between consecutive records. -/
def aiDash : List Char := "---".data

/-- The full separator written between consecutive records: blank line,
divider, blank line. -/
def aiSep : List Char := "\n---\n\n".data

/-- The unit written for one record: header line with the output file's
base name, the record's content verbatim, a newline. -/
def aiUnit (r : BlockRecord) : List Char :=
  "### ".data ++ sanitize_name r.out_path ++ ['\n'] ++ r.content ++ ['\n']

theorem build_ai_context_cons (r : BlockRecord) (rest : List BlockRecord) :
    build_ai_context (r :: rest)
      = aiUnit r ++ ((if rest.isEmpty then [] else aiSep) ++ build_ai_context rest) := by
  show ("### ".data ++ sanitize_name r.out_path ++ ['\n'])
      ++ r.content ++ ['\n']
      ++ (if rest.isEmpty then [] else "\n---\n\n".data)
      ++ build_ai_context rest = _
  rw [aiUnit, aiSep]
  simp only [List.append_assoc]

theorem aiUnit_getLast (r : BlockRecord) : (aiUnit r).getLast? = some '\n' := by
  have h : aiUnit r
      = ("### ".data ++ sanitize_name r.out_path ++ ['\n'] ++ r.content) ++ ['\n'] := by
    rw [aiUnit]
  rw [h, List.getLast?_concat]

theorem getLast?_drop {a : List Char} {p : Nat} (hp : p < a.length) :
    (a.drop p).getLast? = a.getLast? := by
  conv_rhs => rw [← List.take_append_drop p a]
  rw [List.getLast?_append]
  have hne : a.drop p ≠ [] := by
    intro hcon
    have := congrArg List.length hcon
    rw [List.length_drop] at this
    simp at this
    omega
  cases hg : (a.drop p).getLast? with
  | none =>
    rw [List.getLast?_eq_none_iff] at hg
    exact absurd hg hne
  | some c => rfl

theorem dash3_not_prefix_of_small {s b : List Char}
    (hs1 : 1 ≤ s.length) (hs2 : s.length ≤ 2) (hlast : s.getLast? ≠ some '-') :
    aiDash.isPrefixOf (s ++ b) = false := by
  cases hpre : aiDash.isPrefixOf (s ++ b) with
  | false => rfl
  | true =>
    exfalso
    rw [List.isPrefixOf_iff_prefix] at hpre
    obtain ⟨u, hu⟩ := hpre
    apply hlast
    have h1 : s.getLast? = s[s.length - 1]? := List.getLast?_eq_getElem? s
    have h2 : s[s.length - 1]? = (s ++ b)[s.length - 1]? :=
      (List.getElem?_append_left (by omega)).symm
    have h3 : (s ++ b)[s.length - 1]? = (aiDash ++ u)[s.length - 1]? := by
      rw [hu]
    have h4 : (aiDash ++ u)[s.length - 1]? = aiDash[s.length - 1]? :=
      List.getElem?_append_left (by
        have : aiDash.length = 3 := by decide
        omega)
    have h5 : aiDash[s.length - 1]? = some '-' := by
      have : s.length - 1 = 0 ∨ s.length - 1 = 1 := by omega
      rcases this with h | h
      · rw [h]; decide
      · rw [h]; decide
    rw [h1, h2, h3, h4, h5]

/-- Occurrences of the divider in a concatenation split when the left
part does not end in a dash. -/
theorem countOcc_dash3_append (a b : List Char) (ha : a.getLast? ≠ some '-') :
    countOcc aiDash (a ++ b) = countOcc aiDash a + countOcc aiDash b := by
  have hsplit := countOcc_split aiDash (a ++ b) a.length
    (by rw [List.length_append]; omega)
  rw [List.drop_left] at hsplit
  rw [hsplit]
  congr 1
  rw [countOcc_eq_countP]
  have hrange : a.length + 1 = Nat.succ a.length := rfl
  rw [hrange, List.range_succ, List.countP_append]
  have h0 : List.countP (fun p => aiDash.isPrefixOf (a.drop p)) [a.length] = 0 := by
    have hfalse : aiDash.isPrefixOf (a.drop a.length) = false := by
      rw [List.drop_length]
      decide
    simp only [List.countP_cons, List.countP_nil, hfalse]
    rfl
  rw [h0, Nat.add_zero]
  apply (List.countP_congr ?_).symm
  intro p hp
  rw [List.mem_range] at hp
  have heq : aiDash.isPrefixOf (a.drop p ++ b) = aiDash.isPrefixOf (a.drop p) := by
    by_cases h3 : 3 ≤ a.length - p
    · cases hpa : aiDash.isPrefixOf (a.drop p) with
      | true =>
        rw [List.isPrefixOf_iff_prefix] at hpa
        rw [List.isPrefixOf_iff_prefix]
        exact hpa.trans (List.prefix_append _ _)
      | false =>
        cases hpab : aiDash.isPrefixOf (a.drop p ++ b) with
        | false => rfl
        | true =>
          exfalso
          rw [List.isPrefixOf_iff_prefix] at hpab
          have htake := List.prefix_iff_eq_take.mp hpab
          have hlen3 : aiDash.length = 3 := by decide
          rw [hlen3] at htake
          rw [List.take_append_of_le_length (by rw [List.length_drop]; omega)] at htake
          have hpre : aiDash <+: a.drop p := by
            rw [List.prefix_iff_eq_take, hlen3]
            exact htake
          rw [← List.isPrefixOf_iff_prefix] at hpre
          rw [hpre] at hpa
          exact Bool.noConfusion hpa
    · have hlast : (a.drop p).getLast? ≠ some '-' := by
        rw [getLast?_drop (by omega)]
        exact ha
      have hsb := dash3_not_prefix_of_small (s := a.drop p) (b := b)
        (by rw [List.length_drop]; omega) (by rw [List.length_drop]; omega) hlast
      rw [hsb]
      cases hpa : aiDash.isPrefixOf (a.drop p) with
      | false => rfl
      | true =>
        exfalso
        rw [List.isPrefixOf_iff_prefix] at hpa
        have hle := hpa.length_le
        rw [List.length_drop] at hle
        have hlen3 : aiDash.length = 3 := by decide
        omega
  show aiDash.isPrefixOf (a.drop p) = true ↔ aiDash.isPrefixOf ((a ++ b).drop p) = true
  rw [List.drop_append_of_le_length (by omega), heq]

theorem build_ai_context_count :
    ∀ md : List BlockRecord, (∀ r ∈ md, countOcc aiDash (aiUnit r) = 0) →
      countOcc aiDash (build_ai_context md) = md.length - 1 := by
  intro md
  induction md with
  | nil =>
    intro _
    decide
  | cons r rest ih =>
    intro h
    rw [build_ai_context_cons]
    cases rest with
    | nil =>
      show countOcc aiDash (aiUnit r ++ ([] ++ [])) = 1 - 1
      rw [List.nil_append, List.append_nil]
      exact h r (List.mem_cons_self r [])
    | cons m ms =>
      show countOcc aiDash (aiUnit r ++ (aiSep ++ build_ai_context (m :: ms)))
        = (r :: m :: ms).length - 1
      rw [countOcc_dash3_append (aiUnit r) _ (by rw [aiUnit_getLast]; decide)]
      rw [countOcc_dash3_append aiSep _ (by decide)]
      rw [h r (List.mem_cons_self r (m :: ms))]
      have hsep : countOcc aiDash aiSep = 1 := by decide
      rw [hsep]
      rw [ih (fun x hx => h x (List.mem_cons_of_mem r hx))]
      simp only [List.length_cons]
      omega

/-- C9 (amended): `build_ai_context` writes, per record and in input
order, a unit consisting of the `### ` header with the output file's base
name, the record's content verbatim, and a newline; between consecutive
records only — never after the last — it writes the blank-line/divider/
blank-line separator, so M records produce M−1 written separators; an
empty record list produces a zero-byte (still created) file; and the
divider string occurs in the output exactly M−1 times provided no
record's unit itself contains the divider substring. -/
theorem build_ai_context_spec :
    (build_ai_context [] = []) ∧
    (∀ r : BlockRecord, build_ai_context [r] = aiUnit r) ∧
    (∀ (r : BlockRecord) (rest : List BlockRecord), rest ≠ [] →
      build_ai_context (r :: rest) = aiUnit r ++ aiSep ++ build_ai_context rest) ∧
    (∀ md : List BlockRecord, (∀ r ∈ md, countOcc aiDash (aiUnit r) = 0) →
      countOcc aiDash (build_ai_context md) = md.length - 1) := by
  refine ⟨rfl, ?_, ?_, build_ai_context_count⟩
  · intro r
    rw [build_ai_context_cons]
    show aiUnit r ++ ([] ++ []) = aiUnit r
    rw [List.nil_append, List.append_nil]
  · intro r rest hne
    rw [build_ai_context_cons]
    have hfalse : rest.isEmpty = false := by
      cases rest with
      | nil => exact absurd rfl hne
      | cons m ms => rfl
    rw [hfalse]
    show aiUnit r ++ (aiSep ++ build_ai_context rest) = _
    rw [List.append_assoc]

/-- C9 counterexample: one record whose content is the divider string
itself yields one occurrence of the divider in the aggregate file, while
the claim demands M − 1 = 0 occurrences for M = 1 records. -/
theorem ai_context_divider_cex :
    countOcc aiDash (build_ai_context
        [⟨"s".data, "o/tikz_1.tex".data, 1, "---".data⟩]) = 1 ∧
    ([(⟨"s".data, "o/tikz_1.tex".data, 1, "---".data⟩ : BlockRecord)].length - 1
      = 0) :=
  ⟨by decide, rfl⟩

def c9r1 : BlockRecord := ⟨"s".data, "o/tikz_1.tex".data, 1, "x\n".data⟩

def c9r2 : BlockRecord := ⟨"s".data, "o/tikz_2.tex".data, 2, "y\n".data⟩

/-- Closed instance of `build_ai_context_spec` on two divider-free
records: the separator appears between them and the divider occurs
exactly once. -/
theorem build_ai_context_spec_witness :
    build_ai_context [c9r1, c9r2] = aiUnit c9r1 ++ aiSep ++ build_ai_context [c9r2] ∧
    countOcc aiDash (build_ai_context [c9r1, c9r2]) = 1 :=
  ⟨build_ai_context_spec.2.2.1 c9r1 [c9r2] (List.cons_ne_nil c9r2 []),
    build_ai_context_spec.2.2.2 [c9r1, c9r2] (by decide)⟩

end TikzExtractor
